import Mathlib

set_option maxHeartbeats 1000000

/-!
Shallow embedding of the instruction-reassembly service (`src/app.py`).

The embedding covers:
* `repeating_unit_length` — the KMP-style smallest-period computation
  (`app.py` lines 22–35);
* the mutable run state (`seq_to_instr`, `final_instructions`, `final_count`,
  `finalized`) and the four routes `instruction` (Submit), `count_instructions`
  (Count), `reset` (Reset), with responses modelled as the HTTP code together
  with the ordered JSON object the handler builds.

Python strings are modelled as `String`/`List Char`, the Python dict keyed by
`int` as an association list `List (Int × String)` with in-place overwrite,
and Python `range(1, seq)` as `intRange 1 seq` over `Int`.
-/

/-- The inner while loop of `repeating_unit_length`:
`while j > 0 and s[i] != s[j]: j = pi[j-1]`, returning the final `j`.
`fuel` bounds the number of iterations; starting with `fuel = j` is exact,
because every iteration strictly decreases `j` (entries of `pi` satisfy
`pi[k] ≤ k`), so once fuel is exhausted `j` is already `0`, which is also
a loop exit. -/
def fallbackAux (s : List Char) (pi : List Nat) (c : Char) : Nat → Nat → Nat
  | 0, j => j
  | fuel + 1, j =>
    if j = 0 then j
    else if c = s.getD j default then j
    else fallbackAux s pi c fuel (pi.getD (j - 1) 0)

/-- The while loop with its exact fuel. -/
def fallback (s : List Char) (pi : List Nat) (c : Char) (j : Nat) : Nat :=
  fallbackAux s pi c j j

/-- One iteration of the main `for i in range(1, len(s))` loop of
`repeating_unit_length`: given the table `pi` for indices `0..i-1`,
computes `pi[i]`. -/
def piStep (s : List Char) (pi : List Nat) (i : Nat) : Nat :=
  let c := s.getD i default
  let j := fallback s pi c (pi.getD (i - 1) 0)
  if c = s.getD j default then j + 1 else j

/-- The failure table: `piL s i` is the list `[pi[0], ..., pi[i]]`. -/
def piL (s : List Char) : Nat → List Nat
  | 0 => [0]
  | i + 1 => piL s i ++ [piStep s (piL s i) (i + 1)]

/-- `pv s i` is the table entry `pi[i]`. -/
def pv (s : List Char) (i : Nat) : Nat :=
  (piL s i).getD i 0

/-- `repeating_unit_length` from `app.py` (lines 22–35): `0` for the empty
string, otherwise `period := n - pi[n-1]`, returned when it divides `n`,
with `n` returned in all other cases. -/
def repeating_unit_length (str : String) : Nat :=
  let s := str.data
  if s.length = 0 then 0
  else
    let n := s.length
    let period := n - (piL s (n - 1)).getD (n - 1) 0
    if n % period = 0 then period else n

/-- JSON values appearing in the service's responses. -/
inductive JVal where
  | num (n : Int)
  | str (s : String)
  | arrI (l : List Int)
  | arrS (l : List String)
  | null
  deriving DecidableEq

/-- An HTTP response: status code plus the JSON object (ordered fields)
the handler passes to `jsonify`. -/
structure HttpResp where
  code : Nat
  body : List (String × JVal)
  deriving DecidableEq

/-- The module-level mutable state of `app.py`: `seq_to_instr`,
`final_instructions`, `final_count`, `finalized`. -/
structure AppState where
  seq_to_instr : List (Int × String)
  final_instructions : Option (List String)
  final_count : Option Nat
  finalized : Bool
  deriving DecidableEq

/-- The state at process start. -/
def initState : AppState :=
  ⟨[], none, none, false⟩

/-- Python dict assignment `d[k] = v`: overwrite in place if the key is
present, append otherwise. -/
def upsert (m : List (Int × String)) (k : Int) (v : String) : List (Int × String) :=
  match m with
  | [] => [(k, v)]
  | (k1, v1) :: rest => if k1 = k then (k, v) :: rest else (k1, v1) :: upsert rest k v

/-- Python `d.get(k)` returning `None` when absent. -/
def lookupOpt (m : List (Int × String)) (k : Int) : Option String :=
  match m with
  | [] => none
  | (k1, v1) :: rest => if k1 = k then some v1 else lookupOpt rest k

/-- Python `d.get(k, d0)`. -/
def lookupD (m : List (Int × String)) (k : Int) (d0 : String) : String :=
  (lookupOpt m k).getD d0

/-- Python `range(a, b)` over integers. -/
def intRange (a b : Int) : List Int :=
  (List.range (b - a).toNat).map (fun (i : Nat) => a + (i : Int))

/-- `[seq_to_instr.get(i, "") for i in range(1, b)]`. -/
def orderedList (m : List (Int × String)) (b : Int) : List String :=
  (intRange 1 b).map (fun p => lookupD m p "")

/-- `[i for i, v in enumerate(ordered, start=a) if v == ""]`. -/
def collectMissing : Int → List String → List Int
  | _, [] => []
  | a, v :: rest =>
    if v = "" then a :: collectMissing (a + 1) rest else collectMissing (a + 1) rest

/-- The missing positions computed by the terminator branch of `instruction`. -/
def missingOf (m : List (Int × String)) (b : Int) : List Int :=
  collectMissing 1 (orderedList m b)

/-- The `/instruction` POST handler (Submit), acting on an explicit state
and returning the new state together with the response. -/
def instruction (st : AppState) (seq : Int) (instr : String) : AppState × HttpResp :=
  if st.finalized then
    (st, ⟨409, [("status", JVal.str "ignored"), ("reason", JVal.str "sequence finalized")]⟩)
  else
    let st1 : AppState := { st with seq_to_instr := upsert st.seq_to_instr seq instr }
    if instr ≠ "" then
      (st1, ⟨202, [("status", JVal.str "accepted"), ("seq", JVal.num seq)]⟩)
    else
      let ordered := orderedList st1.seq_to_instr seq
      let missing := missingOf st1.seq_to_instr seq
      if missing ≠ [] then
        (st1, ⟨409, [("status", JVal.str "incomplete"),
                     ("final_seq", JVal.num seq),
                     ("missing_count", JVal.num missing.length),
                     ("missing_first_10", JVal.arrI (missing.take 10))]⟩)
      else
        let st2 : AppState :=
          { st1 with final_instructions := some ordered,
                     final_count := some ordered.length,
                     finalized := true }
        let message := String.join ordered
        (st2, ⟨200, [("status", JVal.str "finalized"),
                     ("final_seq", JVal.num seq),
                     ("steps_counted", JVal.num ordered.length),
                     ("message_length", JVal.num message.length),
                     ("repeating_unit_length", JVal.num (repeating_unit_length message))]⟩)

/-- The `/count` GET handler. -/
def count_instructions (st : AppState) : HttpResp :=
  if st.finalized then
    ⟨200, [("instruction_count",
            match st.final_count with
            | some c => JVal.num c
            | none => JVal.null),
           ("status", JVal.str "final")]⟩
  else
    ⟨200, [("instruction_count",
            JVal.num ((st.seq_to_instr.filter (fun p => decide (p.2 ≠ ""))).length)),
           ("status", JVal.str "in-progress")]⟩

/-- The `/reset` POST handler. -/
def reset (_st : AppState) : AppState × HttpResp :=
  (⟨[], none, none, false⟩, ⟨200, [("status", JVal.str "reset")]⟩)

/-- Run a list of Submit calls, in order, from the initial state. -/
def runSubmits (ops : List (Int × String)) : AppState :=
  ops.foldl (fun st op => (instruction st op.1 op.2).1) initState

/-- The `status` field of a response. -/
def statusOf (r : HttpResp) : Option JVal :=
  (r.body.find? (fun p => p.1 == "status")).map Prod.snd

/-- Position `p` is either absent from the mapping or holds the empty
string: this is what `app.py` actually treats as "missing". -/
def absentOrEmpty (m : List (Int × String)) (p : Int) : Prop :=
  lookupOpt m p = none ∨ lookupOpt m p = some ""

instance (m : List (Int × String)) (p : Int) : Decidable (absentOrEmpty m p) := by
  unfold absentOrEmpty
  infer_instance

/-- Declarative description of the missing positions: those `p ∈ [1, b)`
that are absent from the mapping or map to the empty string. -/
def missingSpec (m : List (Int × String)) (b : Int) : List Int :=
  (intRange 1 b).filter (fun p => decide (absentOrEmpty m p))

/-- The property `repeating_unit_length` is specified to compute: `k` is a
whole-number repetition unit length of `s`. -/
def IsFullPeriodOf (s : List Char) (k : Nat) : Prop :=
  1 ≤ k ∧ k ∣ s.length ∧ ∀ i, i < s.length → s.getD i default = s.getD (i % k) default

/-- `k` is a border length of the length-`m` front of `s`: the front's
length-`k` head is a proper suffix of the front. -/
def Border (s : List Char) (m k : Nat) : Prop :=
  k < m ∧ s.take k <:+ s.take m

/-- `p` is a (weak) period of `s`: characters `p` apart agree. -/
def perS (s : List Char) (p : Nat) : Prop :=
  ∀ i, i + p < s.length → s.getD i default = s.getD (i + p) default

/-! ### Basic facts about the failure table -/

theorem piL_length (s : List Char) : ∀ i, (piL s i).length = i + 1
  | 0 => rfl
  | i + 1 => by simp [piL, piL_length s i]

theorem pv_zero (s : List Char) : pv s 0 = 0 := rfl

theorem piL_getD (s : List Char) : ∀ i k, k ≤ i → (piL s i).getD k 0 = pv s k := by
  intro i
  induction i with
  | zero =>
    intro k hk
    have : k = 0 := Nat.le_zero.mp hk
    subst this
    rfl
  | succ i ih =>
    intro k hk
    rcases Nat.lt_or_ge k (i + 1) with h | h
    · have hklen : k < (piL s i).length := by rw [piL_length]; exact h
      show (piL s i ++ [piStep s (piL s i) (i + 1)]).getD k 0 = pv s k
      rw [List.getD_eq_getElem?_getD, List.getElem?_append_left hklen,
        ← List.getD_eq_getElem?_getD]
      exact ih k (Nat.lt_succ_iff.mp h)
    · have : k = i + 1 := by omega
      subst this
      rfl

theorem pv_succ (s : List Char) (i : Nat) : pv s (i + 1) = piStep s (piL s i) (i + 1) := by
  show (piL s i ++ [piStep s (piL s i) (i + 1)]).getD (i + 1) 0 = _
  rw [List.getD_eq_getElem?_getD,
    List.getElem?_append_right (by rw [piL_length])]
  simp [piL_length]

/-! ### Borders -/

theorem border_zero (s : List Char) {m : Nat} (h : 0 < m) : Border s m 0 :=
  ⟨h, by simp⟩

theorem border_trans {s : List Char} {m k2 k1 : Nat}
    (h2 : Border s m k2) (h1 : Border s k2 k1) : Border s m k1 :=
  ⟨h1.1.trans h2.1, h1.2.trans h2.2⟩

theorem border_nest {s : List Char} {m k1 k2 : Nat} (hm : m ≤ s.length)
    (h1 : Border s m k1) (h2 : Border s m k2) (hlt : k1 < k2) : Border s k2 k1 := by
  obtain ⟨hk1m, hs1⟩ := h1
  obtain ⟨hk2m, hs2⟩ := h2
  refine ⟨hlt, ?_⟩
  rw [List.suffix_iff_eq_drop] at hs1 hs2 ⊢
  have l1 : (s.take k1).length = k1 := by rw [List.length_take]; omega
  have l2 : (s.take k2).length = k2 := by rw [List.length_take]; omega
  have lm : (s.take m).length = m := by rw [List.length_take]; omega
  rw [l1, lm] at hs1
  rw [l2, lm] at hs2
  rw [l1, l2, hs2, List.drop_drop, hs1]
  congr 1
  omega

theorem take_succ_getD (s : List Char) {i : Nat} (h : i < s.length) :
    s.take (i + 1) = s.take i ++ [s.getD i default] := by
  rw [List.take_succ]
  congr 1
  rw [List.getElem?_eq_getElem h, List.getD_eq_getElem?_getD, List.getElem?_eq_getElem h]
  rfl

theorem concat_suffix_concat {α : Type} {A B : List α} {a b : α} :
    A ++ [a] <:+ B ++ [b] ↔ a = b ∧ A <:+ B := by
  constructor
  · rintro ⟨t, ht⟩
    rw [← List.append_assoc] at ht
    obtain ⟨h3, h4⟩ := List.append_inj' ht rfl
    simp only [List.cons.injEq, and_true] at h4
    exact ⟨h4, ⟨t, h3⟩⟩
  · rintro ⟨rfl, t, ht⟩
    exact ⟨t, by rw [← List.append_assoc, ht]⟩

theorem border_step {s : List Char} {i k : Nat} (hi : i < s.length) (hk : 1 ≤ k) :
    Border s (i + 1) k ↔
      Border s i (k - 1) ∧ s.getD (k - 1) default = s.getD i default := by
  cases k with
  | zero => omega
  | succ k' =>
    have hsub : k' + 1 - 1 = k' := rfl
    rw [hsub]
    constructor
    · rintro ⟨hlt, hsuf⟩
      have hk'i : k' < i := by omega
      rw [take_succ_getD s hi, take_succ_getD s (hk'i.trans hi),
        concat_suffix_concat] at hsuf
      exact ⟨⟨hk'i, hsuf.2⟩, hsuf.1⟩
    · rintro ⟨⟨hk'i, hsuf⟩, heq⟩
      refine ⟨by omega, ?_⟩
      rw [take_succ_getD s hi, take_succ_getD s (hk'i.trans hi)]
      exact concat_suffix_concat.mpr ⟨heq, hsuf⟩

theorem fallbackAux_succ (s : List Char) (pi : List Nat) (c : Char) (fuel j : Nat) :
    fallbackAux s pi c (fuel + 1) j =
      if j = 0 then j
      else if c = s.getD j default then j
      else fallbackAux s pi c fuel (pi.getD (j - 1) 0) := rfl

theorem fallback_eq (s : List Char) (pi : List Nat) (c : Char) (j : Nat) :
    fallback s pi c j = fallbackAux s pi c j j := rfl

theorem piStep_eq (s : List Char) (pi : List Nat) (i : Nat) :
    piStep s pi i =
      if s.getD i default =
          s.getD (fallback s pi (s.getD i default) (pi.getD (i - 1) 0)) default
      then fallback s pi (s.getD i default) (pi.getD (i - 1) 0) + 1
      else fallback s pi (s.getD i default) (pi.getD (i - 1) 0) := rfl

/-- Specification of the fallback loop: starting from a border `j0` of the
length-`i` front, it returns a border at which the next character matches
(or `0`), and no larger border `≤ j0` matches. -/
theorem fallbackAux_spec (s : List Char) (i : Nat) (hi : i < s.length) (hi1 : 1 ≤ i)
    (IH : ∀ j, j < i → Border s (j + 1) (pv s j) ∧ ∀ k, Border s (j + 1) k → k ≤ pv s j) :
    ∀ fuel j0, j0 ≤ fuel → Border s i j0 →
      Border s i (fallbackAux s (piL s (i - 1)) (s.getD i default) fuel j0) ∧
      (fallbackAux s (piL s (i - 1)) (s.getD i default) fuel j0 = 0 ∨
        s.getD i default =
          s.getD (fallbackAux s (piL s (i - 1)) (s.getD i default) fuel j0) default) ∧
      (∀ k, Border s i k → s.getD i default = s.getD k default → k ≤ j0 →
        k ≤ fallbackAux s (piL s (i - 1)) (s.getD i default) fuel j0) := by
  intro fuel
  induction fuel with
  | zero =>
    intro j0 hle hb
    have hj0 : j0 = 0 := Nat.le_zero.mp hle
    subst hj0
    exact ⟨hb, Or.inl rfl, fun k _ _ hk => hk⟩
  | succ fuel ih =>
    intro j0 hle hb
    by_cases h0 : j0 = 0
    · subst h0
      rw [fallbackAux_succ, if_pos rfl]
      exact ⟨hb, Or.inl rfl, fun k _ _ hk => hk⟩
    · by_cases hc : s.getD i default = s.getD j0 default
      · rw [fallbackAux_succ, if_neg h0, if_pos hc]
        exact ⟨hb, Or.inr hc, fun k _ _ hk => hk⟩
      · rw [fallbackAux_succ, if_neg h0, if_neg hc]
        have hj0i : j0 < i := hb.1
        have hgd : (piL s (i - 1)).getD (j0 - 1) 0 = pv s (j0 - 1) :=
          piL_getD s (i - 1) (j0 - 1) (by omega)
        rw [hgd]
        obtain ⟨hbj, hmaxj⟩ := IH (j0 - 1) (by omega)
        have hj0eq : j0 - 1 + 1 = j0 := by omega
        rw [hj0eq] at hbj hmaxj
        have hb1 : Border s i (pv s (j0 - 1)) := border_trans hb hbj
        have hlt : pv s (j0 - 1) < j0 := hbj.1
        obtain ⟨ra, rb, rc⟩ := ih (pv s (j0 - 1)) (by omega) hb1
        refine ⟨ra, rb, ?_⟩
        intro k hk hckk hkj0
        rcases Nat.lt_or_ge k j0 with hklt | hkge
        · have hkborder : Border s j0 k := border_nest (le_of_lt hi) hk hb hklt
          exact rc k hk hckk (hmaxj k hkborder)
        · have hkeq : k = j0 := by omega
          subst hkeq
          exact absurd hckk hc

/-- The failure table is correct: `pi[i]` is the longest border of the
length-`i+1` front of `s`. -/
theorem pv_maxBorder (s : List Char) :
    ∀ i, i < s.length →
      Border s (i + 1) (pv s i) ∧ ∀ k, Border s (i + 1) k → k ≤ pv s i := by
  intro i
  induction i using Nat.strong_induction_on with
  | _ i IH =>
    intro hi
    cases i with
    | zero =>
      rw [pv_zero]
      refine ⟨border_zero s (by omega), ?_⟩
      intro k hk
      have := hk.1
      omega
    | succ i' =>
      have hi' : i' < s.length := by omega
      have hIH : ∀ j, j < i' + 1 →
          Border s (j + 1) (pv s j) ∧ ∀ k, Border s (j + 1) k → k ≤ pv s j :=
        fun j hj => IH j hj (by omega)
      obtain ⟨hbJ, hmaxJ⟩ := hIH i' (Nat.lt_succ_self i')
      rw [pv_succ, piStep_eq]
      simp only [Nat.add_sub_cancel, fallback_eq]
      have hgd : (piL s i').getD i' 0 = pv s i' := rfl
      rw [hgd]
      have hspec := fallbackAux_spec s (i' + 1) hi (by omega) hIH (pv s i') (pv s i')
        le_rfl hbJ
      simp only [Nat.add_sub_cancel] at hspec
      obtain ⟨ra, rb, rc⟩ := hspec
      set c := s.getD (i' + 1) default with hc_def
      set r := fallbackAux s (piL s i') c (pv s i') (pv s i') with hr_def
      by_cases hc : c = s.getD r default
      · rw [if_pos hc]
        constructor
        · rw [border_step hi (by omega)]
          exact ⟨ra, hc.symm⟩
        · intro k hk
          cases Nat.eq_zero_or_pos k with
          | inl hk0 => omega
          | inr hkpos =>
            rw [border_step hi (by omega)] at hk
            obtain ⟨hkb, hkc⟩ := hk
            have hkle : k - 1 ≤ pv s i' := hmaxJ (k - 1) hkb
            have := rc (k - 1) hkb hkc.symm hkle
            omega
      · rw [if_neg hc]
        have hr0 : r = 0 := by
          rcases rb with h | h
          · exact h
          · exact absurd h hc
        constructor
        · rw [hr0]
          exact border_zero s (by omega)
        · intro k hk
          cases Nat.eq_zero_or_pos k with
          | inl hk0 => omega
          | inr hkpos =>
            rw [border_step hi (by omega)] at hk
            obtain ⟨hkb, hkc⟩ := hk
            have hkle : k - 1 ≤ pv s i' := hmaxJ (k - 1) hkb
            have hkr : k - 1 ≤ r := rc (k - 1) hkb hkc.symm hkle
            rw [hr0] at hkr
            have hk1 : k = 1 := by omega
            subst hk1
            simp only [Nat.sub_self] at hkc
            rw [hr0] at hc
            exact absurd hkc.symm hc

/-! ### Periods and Fine–Wilf -/

theorem getD_eq_getElem {α : Type} (l : List α) (d : α) {i : Nat} (h : i < l.length) :
    l.getD i d = l[i] := by
  rw [List.getD_eq_getElem?_getD, List.getElem?_eq_getElem h]
  rfl

theorem getD_take_eq {α : Type} (l : List α) (d : α) {i m : Nat} (h : i < m) :
    (l.take m).getD i d = l.getD i d := by
  rw [List.getD_eq_getElem?_getD, List.getD_eq_getElem?_getD, List.getElem?_take_of_lt h]

theorem getD_drop_eq {α : Type} (l : List α) (d : α) (m i : Nat) :
    (l.drop m).getD i d = l.getD (m + i) d := by
  rw [List.getD_eq_getElem?_getD, List.getD_eq_getElem?_getD, List.getElem?_drop]

theorem border_iff_perS {s : List Char} {p : Nat} (_hn : 1 ≤ s.length)
    (hp1 : 1 ≤ p) (hpn : p ≤ s.length) :
    Border s s.length (s.length - p) ↔ perS s p := by
  have hlen : (s.take (s.length - p)).length = s.length - p := by
    rw [List.length_take]
    omega
  have hdrop : s.length - (s.length - p) = p := by omega
  constructor
  · rintro ⟨hlt, hsuf⟩
    rw [List.take_length] at hsuf
    rw [List.suffix_iff_eq_drop, hlen, hdrop] at hsuf
    intro i hip
    have h1 : i < s.length - p := by omega
    have e1 : (s.take (s.length - p)).getD i default = s.getD i default :=
      getD_take_eq s default h1
    rw [hsuf, getD_drop_eq] at e1
    rw [← e1]
    congr 1
    omega
  · intro hper
    refine ⟨by omega, ?_⟩
    rw [List.take_length, List.suffix_iff_eq_drop, hlen, hdrop]
    apply List.ext_getElem
    · rw [hlen, List.length_drop]
    · intro i h1 h2
      rw [List.getElem_take, List.getElem_drop]
      have hb1 : i < s.length := by
        rw [hlen] at h1
        omega
      have hb2 : p + i < s.length := by
        rw [List.length_drop] at h2
        omega
      rw [← getD_eq_getElem s default hb1, ← getD_eq_getElem s default hb2]
      have := hper i (by omega)
      rw [this]
      congr 1
      omega

theorem perS_sub {s : List Char} {p q : Nat} (_hp1 : 1 ≤ p) (hpq : p < q)
    (hq : p + q ≤ s.length) (hP : perS s p) (hQ : perS s q) : perS s (q - p) := by
  intro i hi
  rcases Nat.lt_or_ge i p with hip | hip
  · have e1 := hQ i (by omega)
    have e2 := hP (i + (q - p)) (by omega)
    rw [e1]
    have h5 : i + (q - p) + p = i + q := by omega
    rw [h5] at e2
    exact e2.symm
  · have e1 := hP (i - p) (by omega)
    have e2 := hQ (i - p) (by omega)
    have h3 : i - p + p = i := by omega
    have h4 : i - p + q = i + (q - p) := by omega
    rw [h3] at e1
    rw [h4] at e2
    exact e1.symm.trans e2

theorem gcd_sub_eq {p q : Nat} (hpq : p ≤ q) : Nat.gcd p (q - p) = Nat.gcd p q := by
  apply Nat.dvd_antisymm
  · refine Nat.dvd_gcd (Nat.gcd_dvd_left _ _) ?_
    have h1 := Nat.gcd_dvd_left p (q - p)
    have h2 := Nat.gcd_dvd_right p (q - p)
    have h4 : Nat.gcd p (q - p) ∣ q - p + p := Nat.dvd_add h2 h1
    have h5 : q - p + p = q := by omega
    rw [h5] at h4
    exact h4
  · refine Nat.dvd_gcd (Nat.gcd_dvd_left _ _) ?_
    exact Nat.dvd_sub' (Nat.gcd_dvd_right p q) (Nat.gcd_dvd_left p q)

theorem fine_wilf (s : List Char) :
    ∀ t p q, p + q = t → 1 ≤ p → 1 ≤ q → p + q ≤ s.length →
      perS s p → perS s q → perS s (Nat.gcd p q) := by
  intro t
  induction t using Nat.strong_induction_on with
  | _ t IHt =>
    intro p q hpq hp1 hq1 hn hP hQ
    rcases Nat.lt_trichotomy p q with hlt | heq | hgt
    · have hsub : perS s (q - p) := perS_sub hp1 hlt hn hP hQ
      have hrec := IHt (p + (q - p)) (by omega) p (q - p) rfl hp1 (by omega) (by omega)
        hP hsub
      rw [gcd_sub_eq (by omega)] at hrec
      exact hrec
    · subst heq
      rw [Nat.gcd_self]
      exact hP
    · have hsub : perS s (p - q) := perS_sub hq1 hgt (by omega) hQ hP
      have hrec := IHt (q + (p - q)) (by omega) q (p - q) rfl hq1 (by omega) (by omega)
        hQ hsub
      rw [gcd_sub_eq (by omega), Nat.gcd_comm] at hrec
      exact hrec

theorem perS_to_full {s : List Char} {p : Nat} (hp1 : 1 ≤ p) (hper : perS s p) :
    ∀ i, i < s.length → s.getD i default = s.getD (i % p) default := by
  intro i
  induction i using Nat.strong_induction_on with
  | _ i IH =>
    intro hi
    rcases Nat.lt_or_ge i p with h | h
    · rw [Nat.mod_eq_of_lt h]
    · have e1 := hper (i - p) (by omega)
      have h3 : i - p + p = i := by omega
      rw [h3] at e1
      have e2 := IH (i - p) (by omega) (by omega)
      rw [← e1, e2]
      congr 1
      rw [Nat.mod_eq_sub_mod h]

theorem full_to_perS {s : List Char} {p : Nat}
    (h : ∀ i, i < s.length → s.getD i default = s.getD (i % p) default) :
    perS s p := by
  intro i hip
  rw [h i (by omega), h (i + p) (by omega)]
  congr 1
  rw [Nat.add_mod_right]

/-! ### The period computation is correct -/

theorem rul_eq (s : List Char) (hs : ¬s.length = 0) :
    repeating_unit_length (String.mk s) =
      if s.length % (s.length - pv s (s.length - 1)) = 0
      then s.length - pv s (s.length - 1)
      else s.length := by
  simp only [repeating_unit_length, pv]
  rw [if_neg hs]

theorem rul_spec (s : List Char) (hs : 1 ≤ s.length) :
    IsFullPeriodOf s (repeating_unit_length (String.mk s)) ∧
    ∀ k, IsFullPeriodOf s k → repeating_unit_length (String.mk s) ≤ k := by
  have hn0 : ¬s.length = 0 := by omega
  have hmax := pv_maxBorder s (s.length - 1) (by omega)
  have hsub1 : s.length - 1 + 1 = s.length := by omega
  rw [hsub1] at hmax
  obtain ⟨hBb, hBmax⟩ := hmax
  have hBlt : pv s (s.length - 1) < s.length := hBb.1
  have hcand1 : 1 ≤ s.length - pv s (s.length - 1) := by omega
  have hcandn : s.length - pv s (s.length - 1) ≤ s.length := by omega
  have hcandper : perS s (s.length - pv s (s.length - 1)) := by
    rw [← border_iff_perS hs hcand1 hcandn]
    have h9 : s.length - (s.length - pv s (s.length - 1)) = pv s (s.length - 1) := by
      omega
    rw [h9]
    exact hBb
  have hmin : ∀ k, 1 ≤ k → k ≤ s.length → perS s k →
      s.length - pv s (s.length - 1) ≤ k := by
    intro k h1 h2 hper
    have hb : Border s s.length (s.length - k) := (border_iff_perS hs h1 h2).mpr hper
    have := hBmax (s.length - k) hb
    omega
  have hset_weak : ∀ k, IsFullPeriodOf s k → 1 ≤ k ∧ k ≤ s.length ∧ perS s k := by
    intro k hk
    obtain ⟨h1, h2, h3⟩ := hk
    exact ⟨h1, Nat.le_of_dvd (by omega) h2, full_to_perS h3⟩
  rw [rul_eq s hn0]
  by_cases hdvd : s.length % (s.length - pv s (s.length - 1)) = 0
  · rw [if_pos hdvd]
    constructor
    · exact ⟨hcand1, Nat.dvd_of_mod_eq_zero hdvd,
        perS_to_full hcand1 hcandper⟩
    · intro k hk
      obtain ⟨h1, h2, h3⟩ := hset_weak k hk
      exact hmin k h1 h2 h3
  · rw [if_neg hdvd]
    constructor
    · refine ⟨by omega, dvd_refl s.length, ?_⟩
      intro i hi
      rw [Nat.mod_eq_of_lt hi]
    · intro k hk
      by_contra hkn
      push_neg at hkn
      obtain ⟨h1, h2, h3⟩ := hset_weak k hk
      obtain ⟨hk1, hkdvd, _⟩ := hk
      obtain ⟨m, hm⟩ := hkdvd
      have hm2 : 2 ≤ m := by
        by_contra hm2
        push_neg at hm2
        interval_cases m
        · omega
        · omega
      have hk2 : 2 * k ≤ s.length := by
        calc 2 * k = k * 2 := by ring
        _ ≤ k * m := Nat.mul_le_mul_left k hm2
        _ = s.length := hm.symm
      have hcle : s.length - pv s (s.length - 1) ≤ k := hmin k h1 h2 h3
      have hgcd : perS s (Nat.gcd (s.length - pv s (s.length - 1)) k) :=
        fine_wilf s (s.length - pv s (s.length - 1) + k)
          (s.length - pv s (s.length - 1)) k rfl hcand1 h1 (by omega) hcandper h3
      have hgcd1 : 1 ≤ Nat.gcd (s.length - pv s (s.length - 1)) k :=
        Nat.gcd_pos_of_pos_left k (by omega)
      have hgcdle : Nat.gcd (s.length - pv s (s.length - 1)) k ≤
          s.length - pv s (s.length - 1) :=
        Nat.gcd_le_left k (by omega)
      have h5 : s.length - pv s (s.length - 1) ≤
          Nat.gcd (s.length - pv s (s.length - 1)) k :=
        hmin _ hgcd1 (by omega) hgcd
      have h7 : Nat.gcd (s.length - pv s (s.length - 1)) k =
          s.length - pv s (s.length - 1) := by omega
      have h8 : (s.length - pv s (s.length - 1)) ∣ k := by
        rw [← h7]
        exact Nat.gcd_dvd_right _ _
      have h9 : (s.length - pv s (s.length - 1)) ∣ s.length := by
        refine h8.trans ?_
        exact ⟨m, hm⟩
      exact hdvd (Nat.mod_eq_zero_of_dvd h9)

/-- C1: for every string `s`, `repeating_unit_length` (the `PeriodFinder`)
returns the smallest `k ≥ 1` dividing `len(s)` with `s[i] == s[i mod k]`
for all `i < len(s)`; when no such `k < len(s)` exists it returns `len(s)`;
and it returns `0` for the empty string. -/
theorem C1_period_correct (s : String) :
    (s.data = [] → repeating_unit_length s = 0) ∧
    (s.data ≠ [] →
      IsLeast {k | IsFullPeriodOf s.data k} (repeating_unit_length s)) ∧
    (s.data ≠ [] → (∀ k, k < s.data.length → ¬IsFullPeriodOf s.data k) →
      repeating_unit_length s = s.data.length) := by
  have hmk : String.mk s.data = s := rfl
  refine ⟨?_, ?_, ?_⟩
  · intro h
    simp [repeating_unit_length, h]
  · intro h
    have hs : 1 ≤ s.data.length := List.length_pos.mpr h
    obtain ⟨hmem, hmin⟩ := rul_spec s.data hs
    rw [hmk] at hmem hmin
    exact ⟨hmem, fun k hk => hmin k hk⟩
  · intro h hnone
    have hs : 1 ≤ s.data.length := List.length_pos.mpr h
    obtain ⟨hmem, _⟩ := rul_spec s.data hs
    rw [hmk] at hmem
    have hle : repeating_unit_length s ≤ s.data.length :=
      Nat.le_of_dvd (by omega) hmem.2.1
    rcases Nat.lt_or_ge (repeating_unit_length s) s.data.length with hlt | hge
    · exact absurd hmem (hnone _ hlt)
    · omega

/-- Witness for C1 at the concrete string `"abab"`: the computed value is
`2` and it is the least whole-number repetition unit length. -/
theorem C1_period_correct_witness :
    repeating_unit_length (String.mk ['a', 'b', 'a', 'b']) = 2 ∧
    IsLeast {k | IsFullPeriodOf ['a', 'b', 'a', 'b'] k}
      (repeating_unit_length (String.mk ['a', 'b', 'a', 'b'])) :=
  ⟨by decide, (C1_period_correct (String.mk ['a', 'b', 'a', 'b'])).2.1 (by decide)⟩

/-! ### State machine support lemmas -/

theorem lookup_upsert_self (m : List (Int × String)) (k : Int) (v : String) :
    lookupOpt (upsert m k v) k = some v := by
  induction m with
  | nil => simp [upsert, lookupOpt]
  | cons hd tl ih =>
    obtain ⟨k1, v1⟩ := hd
    by_cases h : k1 = k
    · subst h
      simp [upsert, lookupOpt]
    · simp [upsert, lookupOpt, h, ih]

theorem lookup_upsert_other (m : List (Int × String)) {k p : Int} (v : String)
    (h : p ≠ k) : lookupOpt (upsert m k v) p = lookupOpt m p := by
  have hk : ¬(k = p) := fun hh => h hh.symm
  induction m with
  | nil => simp [upsert, lookupOpt, hk]
  | cons hd tl ih =>
    obtain ⟨k1, v1⟩ := hd
    by_cases h1 : k1 = k
    · subst h1
      simp [upsert, lookupOpt, hk]
    · simp [upsert, lookupOpt, h1, ih]

theorem mem_intRange {a b p : Int} : p ∈ intRange a b ↔ a ≤ p ∧ p < b := by
  simp only [intRange, List.mem_map, List.mem_range]
  constructor
  · rintro ⟨i, hi, rfl⟩
    omega
  · rintro ⟨h1, h2⟩
    exact ⟨(p - a).toNat, by omega, by omega⟩

theorem intRange_nil {a b : Int} (h : b ≤ a) : intRange a b = [] := by
  unfold intRange
  have h1 : (b - a).toNat = 0 := by omega
  rw [h1]
  rfl

theorem intRange_cons {a b : Int} (h : a < b) :
    intRange a b = a :: intRange (a + 1) b := by
  unfold intRange
  have h1 : (b - a).toNat = (b - (a + 1)).toNat + 1 := by omega
  rw [h1, List.range_succ_eq_map, List.map_cons, List.map_map]
  congr 1
  · simp
  · apply List.map_congr_left
    intro i _
    simp only [Function.comp_apply, Nat.succ_eq_add_one]
    push_cast
    ring

theorem intRange_length {a b : Int} : (intRange a b).length = (b - a).toNat := by
  unfold intRange
  rw [List.length_map, List.length_range]

theorem intRange_pairwise {a b : Int} : (intRange a b).Pairwise (· < ·) := by
  unfold intRange
  rw [List.pairwise_map]
  apply List.Pairwise.imp ?_ (List.pairwise_lt_range _)
  intro i j hij
  omega

theorem collectMissing_cons (a : Int) (v : String) (rest : List String) :
    collectMissing a (v :: rest) =
      if v = "" then a :: collectMissing (a + 1) rest
      else collectMissing (a + 1) rest := rfl

theorem collectMissing_intRange (g : Int → String) :
    ∀ (n : Nat) (a : Int),
      collectMissing a ((intRange a (a + n)).map g) =
        (intRange a (a + n)).filter (fun p => decide (g p = "")) := by
  intro n
  induction n with
  | zero =>
    intro a
    rw [intRange_nil (by omega)]
    rfl
  | succ n ih =>
    intro a
    rw [intRange_cons (by omega), List.map_cons, collectMissing_cons,
      List.filter_cons]
    have hshift : a + (n + 1 : Nat) = (a + 1) + (n : Nat) := by push_cast; ring
    rw [hshift, ih (a + 1)]
    by_cases hv : g a = ""
    · simp [hv]
    · simp [hv]

theorem missingOf_filter (m : List (Int × String)) (b : Int) :
    missingOf m b = (intRange 1 b).filter (fun p => decide (lookupD m p "" = "")) := by
  unfold missingOf orderedList
  rcases le_or_lt b 1 with h | h
  · rw [intRange_nil h]
    rfl
  · have hb : b = 1 + ((b - 1).toNat : Int) := by omega
    rw [hb]
    exact collectMissing_intRange (fun p => lookupD m p "") (b - 1).toNat 1

theorem lookupD_empty_iff (m : List (Int × String)) (p : Int) :
    lookupD m p "" = "" ↔ absentOrEmpty m p := by
  unfold lookupD absentOrEmpty
  cases h : lookupOpt m p with
  | none => simp
  | some v => simp

theorem missingOf_eq_missingSpec (m : List (Int × String)) (b : Int) :
    missingOf m b = missingSpec m b := by
  rw [missingOf_filter]
  unfold missingSpec
  apply List.filter_congr
  intro p _
  rw [decide_eq_decide]
  exact lookupD_empty_iff m p

theorem missingSpec_sorted (m : List (Int × String)) (b : Int) :
    (missingSpec m b).Pairwise (· < ·) := by
  unfold missingSpec
  exact List.Pairwise.sublist (List.filter_sublist _) intRange_pairwise

theorem mem_missingSpec {m : List (Int × String)} {b p : Int} :
    p ∈ missingSpec m b ↔ 1 ≤ p ∧ p < b ∧ absentOrEmpty m p := by
  unfold missingSpec
  rw [List.mem_filter]
  simp only [mem_intRange, decide_eq_true_eq]
  tauto

theorem orderedList_upsert_irrelevant (m : List (Int × String)) {k b : Int}
    (v : String) (h : ¬(1 ≤ k ∧ k < b)) :
    orderedList (upsert m k v) b = orderedList m b := by
  unfold orderedList
  apply List.map_congr_left
  intro p hp
  rw [mem_intRange] at hp
  unfold lookupD
  rw [lookup_upsert_other m v (by omega)]

theorem missingOf_upsert_irrelevant (m : List (Int × String)) {k b : Int}
    (v : String) (h : ¬(1 ≤ k ∧ k < b)) :
    missingOf (upsert m k v) b = missingOf m b := by
  unfold missingOf
  rw [orderedList_upsert_irrelevant m v h]

theorem orderedList_getD (m : List (Int × String)) {b p : Int}
    (h1 : 1 ≤ p) (h2 : p < b) :
    (orderedList m b).getD (p - 1).toNat "" = lookupD m p "" := by
  have hlen : (p - 1).toNat < (intRange 1 b).length := by
    rw [intRange_length]
    omega
  unfold orderedList
  rw [getD_eq_getElem _ _ (by rw [List.length_map]; exact hlen)]
  rw [List.getElem_map]
  unfold intRange
  rw [List.getElem_map, List.getElem_range]
  congr 1
  omega

theorem statusOf_of_body (c : Nat) (v : JVal) (rest : List (String × JVal)) :
    statusOf ⟨c, ("status", v) :: rest⟩ = some v := by
  simp [statusOf, List.find?]

theorem instruction_of_finalized (st : AppState) (seq : Int) (instr : String)
    (h : st.finalized = true) :
    instruction st seq instr =
      (st, ⟨409, [("status", JVal.str "ignored"),
                  ("reason", JVal.str "sequence finalized")]⟩) := by
  dsimp only [instruction]
  rw [if_pos h]

theorem instruction_of_content (st : AppState) (seq : Int) (instr : String)
    (h : st.finalized = false) (hne : instr ≠ "") :
    instruction st seq instr =
      ({ st with seq_to_instr := upsert st.seq_to_instr seq instr },
       ⟨202, [("status", JVal.str "accepted"), ("seq", JVal.num seq)]⟩) := by
  dsimp only [instruction]
  rw [if_neg (by simp [h]), if_pos hne]

theorem instruction_term_incomplete (st : AppState) (seq : Int)
    (h : st.finalized = false)
    (hm : missingOf (upsert st.seq_to_instr seq "") seq ≠ []) :
    instruction st seq "" =
      ({ st with seq_to_instr := upsert st.seq_to_instr seq "" },
       ⟨409, [("status", JVal.str "incomplete"),
              ("final_seq", JVal.num seq),
              ("missing_count",
                JVal.num (missingOf (upsert st.seq_to_instr seq "") seq).length),
              ("missing_first_10",
                JVal.arrI ((missingOf (upsert st.seq_to_instr seq "") seq).take 10))]⟩) := by
  dsimp only [instruction]
  rw [if_neg (by simp [h]), if_neg (by simp), if_pos hm]

theorem instruction_term_complete (st : AppState) (seq : Int)
    (h : st.finalized = false)
    (hm : missingOf (upsert st.seq_to_instr seq "") seq = []) :
    instruction st seq "" =
      (⟨upsert st.seq_to_instr seq "",
        some (orderedList (upsert st.seq_to_instr seq "") seq),
        some (orderedList (upsert st.seq_to_instr seq "") seq).length,
        true⟩,
       ⟨200, [("status", JVal.str "finalized"),
              ("final_seq", JVal.num seq),
              ("steps_counted",
                JVal.num (orderedList (upsert st.seq_to_instr seq "") seq).length),
              ("message_length",
                JVal.num (String.join
                  (orderedList (upsert st.seq_to_instr seq "") seq)).length),
              ("repeating_unit_length",
                JVal.num (repeating_unit_length
                  (String.join (orderedList (upsert st.seq_to_instr seq "") seq))))]⟩) := by
  dsimp only [instruction]
  rw [if_neg (by simp [h]), if_neg (by simp), if_neg (by simp [hm])]

theorem instruction_seq_to_instr (st : AppState) (seq : Int) (instr : String)
    (h : st.finalized = false) :
    ((instruction st seq instr).1).seq_to_instr = upsert st.seq_to_instr seq instr := by
  by_cases htt : instr = ""
  · subst htt
    by_cases hmm : missingOf (upsert st.seq_to_instr seq "") seq = []
    · rw [instruction_term_complete st seq h hmm]
    · rw [instruction_term_incomplete st seq h hmm]
  · rw [instruction_of_content st seq instr h htt]

theorem orderedList_length (m : List (Int × String)) (b : Int) :
    (orderedList m b).length = (b - 1).toNat := by
  unfold orderedList
  rw [List.length_map, intRange_length]

theorem missingOf_upsert_term (st : AppState) (N : Int) :
    missingOf (upsert st.seq_to_instr N "") N = missingSpec st.seq_to_instr N := by
  rw [missingOf_upsert_irrelevant st.seq_to_instr "" (by omega),
    missingOf_eq_missingSpec]

/-! ### The claims -/

/-- C2 counterexample: after submitting positions 2 (as an empty-text
terminator) and 1, every position in `1..2` has been submitted, yet the
terminator at 3 still reports `Incomplete` with missing position 2 —
because the code treats a stored empty string as missing, not
"never submitted". -/
theorem C2_gap_counterexample :
    (runSubmits [(2, ""), (1, "a")]).finalized = false ∧
    (∀ p ∈ intRange 1 3, p ∈ [((2 : Int), ""), ((1 : Int), "a")].map Prod.fst) ∧
    (instruction (runSubmits [(2, ""), (1, "a")]) 3 "").2 =
      ⟨409, [("status", JVal.str "incomplete"), ("final_seq", JVal.num 3),
             ("missing_count", JVal.num 1),
             ("missing_first_10", JVal.arrI [2])]⟩ :=
  ⟨by decide, by decide, by decide⟩

/-- C2 (amended): for every live run, a terminator at position `N` yields
`Incomplete` exactly when some position in `1..N-1` is absent from the
mapping or currently holds the empty string; the reported missing
positions are exactly the sorted list of those positions, reported as the
first 10 together with the total count. -/
theorem C2_gap_detection (st : AppState) (N : Int) (hlive : st.finalized = false) :
    (statusOf (instruction st N "").2 = some (JVal.str "incomplete") ↔
      missingSpec st.seq_to_instr N ≠ []) ∧
    (missingSpec st.seq_to_instr N).Pairwise (· < ·) ∧
    (∀ p : Int, p ∈ missingSpec st.seq_to_instr N ↔
      1 ≤ p ∧ p < N ∧ absentOrEmpty st.seq_to_instr p) ∧
    (missingSpec st.seq_to_instr N ≠ [] →
      (instruction st N "").2 =
        ⟨409, [("status", JVal.str "incomplete"),
               ("final_seq", JVal.num N),
               ("missing_count", JVal.num (missingSpec st.seq_to_instr N).length),
               ("missing_first_10",
                 JVal.arrI ((missingSpec st.seq_to_instr N).take 10))]⟩) := by
  have hkey := missingOf_upsert_term st N
  refine ⟨?_, missingSpec_sorted _ _, fun p => mem_missingSpec, ?_⟩
  · by_cases hm : missingSpec st.seq_to_instr N = []
    · rw [instruction_term_complete st N hlive (by rw [hkey]; exact hm)]
      dsimp only
      rw [statusOf_of_body]
      simp [hm]
    · rw [instruction_term_incomplete st N hlive (by rw [hkey]; exact hm)]
      dsimp only
      rw [statusOf_of_body]
      simp [hm]
  · intro hm
    rw [instruction_term_incomplete st N hlive (by rw [hkey]; exact hm)]
    dsimp only
    rw [hkey]

/-- C2 witness: a concrete live run where position 2 is absent; the
instantiated equivalence, plus the concrete missing list. -/
theorem C2_gap_detection_witness :
    (statusOf (instruction ⟨[(1, "a")], none, none, false⟩ 3 "").2 =
        some (JVal.str "incomplete") ↔
      missingSpec [(1, "a")] 3 ≠ []) ∧
    missingSpec [(1, "a")] 3 = [2] :=
  ⟨(C2_gap_detection ⟨[(1, "a")], none, none, false⟩ 3 rfl).1, by decide⟩

/-- C3 counterexample: after a run finalizes, a further submission is
rejected, but with status `"ignored"` and reason `"sequence finalized"` —
not the reason `"already finalized"` stated in the claim. -/
theorem C3_reason_counterexample :
    (runSubmits [(1, "ab"), (2, "")]).finalized = true ∧
    (instruction (runSubmits [(1, "ab"), (2, "")]) 4 "z").2 =
      ⟨409, [("status", JVal.str "ignored"),
             ("reason", JVal.str "sequence finalized")]⟩ ∧
    ("reason", JVal.str "already finalized") ∉
      (instruction (runSubmits [(1, "ab"), (2, "")]) 4 "z").2.body :=
  ⟨by decide, by decide, by decide⟩

/-- C3 (amended): once a run is finalized, every subsequent Submit call,
regardless of its seq and text, returns the HTTP 409 rejection with status
`"ignored"` and reason `"sequence finalized"` (distinguishable from
Accepted), leaves the state unchanged (so the run stays finalized), and
only `reset` clears the finalized flag. -/
theorem C3_finalized_rejects (st : AppState) (seq : Int) (instr : String)
    (hfin : st.finalized = true) :
    instruction st seq instr =
      (st, ⟨409, [("status", JVal.str "ignored"),
                  ("reason", JVal.str "sequence finalized")]⟩) ∧
    ((instruction st seq instr).1).finalized = true ∧
    statusOf (instruction st seq instr).2 ≠ some (JVal.str "accepted") ∧
    ((reset st).1).finalized = false := by
  have h := instruction_of_finalized st seq instr hfin
  refine ⟨h, by rw [h]; exact hfin, ?_, rfl⟩
  rw [h]
  dsimp only
  rw [statusOf_of_body]
  simp

/-- C3 witness: the amended claim instantiated at a concrete finalized
state. -/
theorem C3_finalized_rejects_witness :
    instruction ⟨[(1, "ab"), (2, "")], some ["ab"], some 1, true⟩ 4 "z" =
      (⟨[(1, "ab"), (2, "")], some ["ab"], some 1, true⟩,
       ⟨409, [("status", JVal.str "ignored"),
              ("reason", JVal.str "sequence finalized")]⟩) ∧
    ((instruction ⟨[(1, "ab"), (2, "")], some ["ab"], some 1, true⟩ 4 "z").1).finalized =
      true ∧
    statusOf (instruction ⟨[(1, "ab"), (2, "")], some ["ab"], some 1, true⟩ 4 "z").2 ≠
      some (JVal.str "accepted") ∧
    ((reset ⟨[(1, "ab"), (2, "")], some ["ab"], some 1, true⟩).1).finalized = false :=
  C3_finalized_rejects ⟨[(1, "ab"), (2, "")], some ["ab"], some 1, true⟩ 4 "z" rfl

/-- C5 counterexample: a concrete terminator submission that returns
`Incomplete` whose response carries no `message_length` field at all. -/
theorem C5_payload_counterexample :
    statusOf (instruction (runSubmits [(1, "x")]) 3 "").2 =
      some (JVal.str "incomplete") ∧
    "message_length" ∉ ((instruction (runSubmits [(1, "x")]) 3 "").2.body.map Prod.fst) :=
  ⟨by decide, by decide⟩

/-- C5 (amended): whenever Submit returns an Incomplete result, the payload
consists of exactly the fields `status`, `final_seq`, `missing_count` and
`missing_first_10`; no assembled-length (`message_length`) field is
included. -/
theorem C5_incomplete_payload (st : AppState) (N : Int)
    (hlive : st.finalized = false)
    (hm : missingSpec st.seq_to_instr N ≠ []) :
    ((instruction st N "").2).body.map Prod.fst =
      ["status", "final_seq", "missing_count", "missing_first_10"] ∧
    "message_length" ∉ ((instruction st N "").2).body.map Prod.fst := by
  have hkey := missingOf_upsert_term st N
  rw [instruction_term_incomplete st N hlive (by rw [hkey]; exact hm)]
  refine ⟨rfl, ?_⟩
  show "message_length" ∉ ["status", "final_seq", "missing_count", "missing_first_10"]
  decide

/-- C5 witness: the amended claim instantiated at a concrete incomplete
submission. -/
theorem C5_incomplete_payload_witness :
    ((instruction ⟨[(1, "x")], none, none, false⟩ 3 "").2).body.map Prod.fst =
      ["status", "final_seq", "missing_count", "missing_first_10"] :=
  (C5_incomplete_payload ⟨[(1, "x")], none, none, false⟩ 3 rfl (by decide)).1

/-- C4: for every live run in which every position `1..N-1` holds a
non-empty fragment, a terminator at `N` returns `Finalized` with
`final_seq = N`, `steps_counted = N-1`, `message_length` the length of the
concatenation of the fragments at `1..N-1` in order, and
`repeating_unit_length` the period of that concatenation; afterwards the
run is frozen with that ordered sequence, `final_count = N-1` and
`finalized = true`. -/
theorem C4_complete_finalize (st : AppState) (N : Int)
    (hlive : st.finalized = false) (hN : 1 ≤ N)
    (hfull : ∀ p : Int, 1 ≤ p → p < N →
      ∃ t, lookupOpt st.seq_to_instr p = some t ∧ t ≠ "") :
    (instruction st N "").2 =
      ⟨200, [("status", JVal.str "finalized"),
             ("final_seq", JVal.num N),
             ("steps_counted", JVal.num (N - 1)),
             ("message_length",
               JVal.num (String.join (orderedList st.seq_to_instr N)).length),
             ("repeating_unit_length",
               JVal.num (repeating_unit_length
                 (String.join (orderedList st.seq_to_instr N))))]⟩ ∧
    ((instruction st N "").1).finalized = true ∧
    ((instruction st N "").1).final_instructions =
      some (orderedList st.seq_to_instr N) ∧
    ((instruction st N "").1).final_count = some (N - 1).toNat ∧
    (∀ p : Int, 1 ≤ p → p < N →
      (orderedList st.seq_to_instr N).getD (p - 1).toNat "" =
        lookupD st.seq_to_instr p "") := by
  have hnomiss : missingSpec st.seq_to_instr N = [] := by
    unfold missingSpec
    rw [List.filter_eq_nil_iff]
    intro p hp
    rw [mem_intRange] at hp
    obtain ⟨t, hlt, hne⟩ := hfull p hp.1 hp.2
    simp only [decide_eq_true_eq]
    unfold absentOrEmpty
    rw [hlt]
    simp [hne]
  have hkey := missingOf_upsert_term st N
  have horder : orderedList (upsert st.seq_to_instr N "") N =
      orderedList st.seq_to_instr N :=
    orderedList_upsert_irrelevant st.seq_to_instr "" (by omega)
  have hlenord : (orderedList st.seq_to_instr N).length = (N - 1).toNat :=
    orderedList_length st.seq_to_instr N
  have hcast : ((orderedList st.seq_to_instr N).length : Int) = N - 1 := by
    rw [hlenord]
    omega
  rw [instruction_term_complete st N hlive (by rw [hkey]; exact hnomiss)]
  dsimp only
  rw [horder, hcast, hlenord]
  exact ⟨rfl, rfl, rfl, rfl, fun p h1 h2 => orderedList_getD st.seq_to_instr h1 h2⟩

/-- C4 witness: the spec's first concrete scenario, submits
`(1,"ab")`, `(2,"cd")`, then a terminator at 3: finalized, message
`"abcd"` of length 4 and period 4. -/
theorem C4_complete_finalize_witness :
    ((instruction (runSubmits [(1, "ab"), (2, "cd")]) 3 "").1).finalized = true ∧
    ((instruction (runSubmits [(1, "ab"), (2, "cd")]) 3 "").2).body.map Prod.snd =
      [JVal.str "finalized", JVal.num 3, JVal.num 2, JVal.num 4, JVal.num 4] := by
  have h := C4_complete_finalize (runSubmits [(1, "ab"), (2, "cd")]) 3 rfl (by decide)
    (by
      intro p h1 h2
      have hp : p = 1 ∨ p = 2 := by omega
      rcases hp with hp | hp
      · subst hp
        exact ⟨"ab", by decide, by decide⟩
      · subst hp
        exact ⟨"cd", by decide, by decide⟩)
  exact ⟨h.2.1, by decide⟩

/-- C6: for a live run, submitting at the same sequence number twice with
different texts leaves the later text in the mapping (last write wins),
and if a terminator then finalizes the run, the later text is the one at
that position of the final assembly. -/
theorem C6_last_write_wins (st : AppState) (q : Int) (t1 t2 : String)
    (hlive : st.finalized = false) (ht1 : t1 ≠ "") (_hne : t1 ≠ t2) :
    lookupOpt ((instruction (instruction st q t1).1 q t2).1).seq_to_instr q =
      some t2 ∧
    (∀ N : Int, 1 ≤ q → q < N →
      missingSpec ((instruction (instruction st q t1).1 q t2).1).seq_to_instr N = [] →
      ((instruction ((instruction (instruction st q t1).1 q t2).1) N "").1).final_instructions =
        some (orderedList
          ((instruction (instruction st q t1).1 q t2).1).seq_to_instr N) ∧
      (orderedList ((instruction (instruction st q t1).1 q t2).1).seq_to_instr N).getD
        (q - 1).toNat "" = t2) := by
  have h1 := instruction_of_content st q t1 hlive ht1
  have hfin1 : ((instruction st q t1).1).finalized = false := by
    rw [h1]
    exact hlive
  have hseq2 : ((instruction (instruction st q t1).1 q t2).1).seq_to_instr =
      upsert ((instruction st q t1).1).seq_to_instr q t2 :=
    instruction_seq_to_instr _ q t2 hfin1
  have hlook : lookupOpt ((instruction (instruction st q t1).1 q t2).1).seq_to_instr q =
      some t2 := by
    rw [hseq2]
    exact lookup_upsert_self _ q t2
  refine ⟨hlook, ?_⟩
  intro N hq1 hqN hcomplete
  have hq_present : ¬absentOrEmpty
      ((instruction (instruction st q t1).1 q t2).1).seq_to_instr q := by
    intro habs
    have hmem : q ∈ missingSpec
        ((instruction (instruction st q t1).1 q t2).1).seq_to_instr N :=
      mem_missingSpec.mpr ⟨hq1, hqN, habs⟩
    rw [hcomplete] at hmem
    exact absurd hmem (List.not_mem_nil q)
  have ht2 : t2 ≠ "" := by
    intro h2
    subst h2
    exact hq_present (Or.inr hlook)
  have hfin2 : ((instruction (instruction st q t1).1 q t2).1).finalized = false := by
    rw [instruction_of_content _ q t2 hfin1 ht2]
    exact hfin1
  have hmiss0 : missingOf
      (upsert ((instruction (instruction st q t1).1 q t2).1).seq_to_instr N "") N = [] := by
    rw [missingOf_upsert_irrelevant _ "" (by omega), missingOf_eq_missingSpec]
    exact hcomplete
  rw [instruction_term_complete _ N hfin2 hmiss0]
  dsimp only
  constructor
  · rw [orderedList_upsert_irrelevant _ "" (by omega)]
  · rw [orderedList_getD _ hq1 hqN]
    unfold lookupD
    rw [hlook]
    rfl

/-- C6 witness: two submissions at seq 1 with texts `"x"` then `"y"`,
followed by a terminator at 2: the mapping and the final assembly both
hold `"y"`. -/
theorem C6_last_write_wins_witness :
    lookupOpt ((instruction (instruction initState 1 "x").1 1 "y").1).seq_to_instr 1 =
      some "y" ∧
    (orderedList ((instruction (instruction initState 1 "x").1 1 "y").1).seq_to_instr
      2).getD 0 "" = "y" := by
  have h := C6_last_write_wins initState 1 "x" "y" rfl (by decide) (by decide)
  exact ⟨h.1, (h.2 2 (by decide) (by decide) (by decide)).2⟩

/-- C7: `reset`, invoked in any state, always succeeds, returns the
`{status: "reset"}` acknowledgement and restores the exact initial state
(empty mapping, no frozen sequence, no frozen count, not finalized), after
which a fresh run can finalize again (the spec's scenario 5:
`(1,"aa")` then a terminator at 2 finalizes with message length 2 and
repeating unit length 1). -/
theorem C7_reset (st : AppState) :
    reset st = (initState, ⟨200, [("status", JVal.str "reset")]⟩) ∧
    initState.seq_to_instr = [] ∧
    initState.final_instructions = none ∧
    initState.final_count = none ∧
    initState.finalized = false ∧
    (instruction ((instruction ((reset st).1) 1 "aa").1) 2 "").2 =
      ⟨200, [("status", JVal.str "finalized"),
             ("final_seq", JVal.num 2),
             ("steps_counted", JVal.num 1),
             ("message_length", JVal.num 2),
             ("repeating_unit_length", JVal.num 1)]⟩ :=
  ⟨rfl, rfl, rfl, rfl, rfl, by
    show (instruction ((instruction initState 1 "aa").1) 2 "").2 = _
    decide⟩

/-- C8: `count_instructions` returns the frozen count with status
`"final"` on a finalized run, and otherwise the number of live entries
with non-empty text with status `"in-progress"` (empty-text terminator
entries are never counted); before any submission it returns 0,
`"in-progress"`. -/
theorem C8_count (st : AppState) :
    (st.finalized = true →
      count_instructions st =
        ⟨200, [("instruction_count",
                match st.final_count with
                | some c => JVal.num c
                | none => JVal.null),
               ("status", JVal.str "final")]⟩) ∧
    (st.finalized = false →
      count_instructions st =
        ⟨200, [("instruction_count",
                JVal.num (((st.seq_to_instr.map Prod.snd).filter
                  (fun v => decide (v ≠ ""))).length)),
               ("status", JVal.str "in-progress")]⟩) ∧
    count_instructions initState =
      ⟨200, [("instruction_count", JVal.num 0),
             ("status", JVal.str "in-progress")]⟩ := by
  refine ⟨fun h => ?_, fun h => ?_, rfl⟩
  · unfold count_instructions
    rw [if_pos h]
  · unfold count_instructions
    rw [if_neg (by simp [h])]
    have hc : (st.seq_to_instr.filter (fun p => decide (p.2 ≠ ""))).length =
        ((st.seq_to_instr.map Prod.snd).filter (fun v => decide (v ≠ ""))).length := by
      rw [List.filter_map, List.length_map]
      rfl
    rw [hc]

/-- C8 witness: a live mapping holding one non-empty fragment and one
stored empty string counts exactly 1. -/
theorem C8_count_witness :
    count_instructions ⟨[(1, "a"), (2, "")], none, none, false⟩ =
      ⟨200, [("instruction_count", JVal.num 1),
             ("status", JVal.str "in-progress")]⟩ := by
  have h := (C8_count ⟨[(1, "a"), (2, "")], none, none, false⟩).2.1 rfl
  rw [h]
  decide

/-- C9: a terminator submission on a live run stores the empty string at
its own sequence number before the completeness check (overwriting any
earlier text there), and a position holding the empty string is reported
missing by every completeness check over a range containing it. -/
theorem C9_terminator_side_effect (st : AppState) (N : Int)
    (hlive : st.finalized = false)
    (_hinc : statusOf (instruction st N "").2 = some (JVal.str "incomplete")) :
    lookupOpt ((instruction st N "").1).seq_to_instr N = some "" ∧
    (∀ (m : List (Int × String)) (b : Int),
      lookupOpt m N = some "" → 1 ≤ N → N < b → N ∈ missingOf m b) := by
  constructor
  · rw [instruction_seq_to_instr st N "" hlive]
    exact lookup_upsert_self _ N ""
  · intro m b hm h1 hb
    rw [missingOf_eq_missingSpec]
    exact mem_missingSpec.mpr ⟨h1, hb, Or.inr hm⟩

/-- C9 witness: the terminator at 2 overwrites the fragment `"xy"`
previously stored at 2 with the empty string, and a stored empty string
at 2 is reported missing by a later check at 3. -/
theorem C9_terminator_side_effect_witness :
    lookupOpt ((instruction ⟨[(2, "xy")], none, none, false⟩ 2 "").1).seq_to_instr 2 =
      some "" ∧
    (2 : Int) ∈ missingOf [(2, "")] 3 := by
  have h := C9_terminator_side_effect ⟨[(2, "xy")], none, none, false⟩ 2 rfl (by decide)
  exact ⟨h.1, h.2 [(2, "")] 3 (by decide) (by decide) (by decide)⟩

/-- C10: on a live run, a terminator at a sequence number `N ≤ 1`
immediately finalizes the run with an empty message: the result is
Finalized with `steps_counted = 0`, `message_length = 0` and
`repeating_unit_length = 0`. -/
theorem C10_early_terminator (st : AppState) (N : Int)
    (hlive : st.finalized = false) (hN : N ≤ 1) :
    (instruction st N "").2 =
      ⟨200, [("status", JVal.str "finalized"),
             ("final_seq", JVal.num N),
             ("steps_counted", JVal.num 0),
             ("message_length", JVal.num 0),
             ("repeating_unit_length", JVal.num 0)]⟩ ∧
    ((instruction st N "").1).finalized = true ∧
    ((instruction st N "").1).final_instructions = some [] ∧
    ((instruction st N "").1).final_count = some 0 := by
  have hord : orderedList (upsert st.seq_to_instr N "") N = [] := by
    unfold orderedList
    rw [intRange_nil hN]
    rfl
  have hmiss : missingOf (upsert st.seq_to_instr N "") N = [] := by
    unfold missingOf
    rw [hord]
    rfl
  rw [instruction_term_complete st N hlive hmiss]
  dsimp only
  rw [hord]
  exact ⟨rfl, rfl, rfl, rfl⟩

/-- C10 witness: a terminator at 0 on the initial state. -/
theorem C10_early_terminator_witness :
    (instruction initState 0 "").2 =
      ⟨200, [("status", JVal.str "finalized"), ("final_seq", JVal.num 0),
             ("steps_counted", JVal.num 0), ("message_length", JVal.num 0),
             ("repeating_unit_length", JVal.num 0)]⟩ ∧
    ((instruction initState 0 "").1).finalized = true :=
  ⟨(C10_early_terminator initState 0 rfl (by decide)).1,
   (C10_early_terminator initState 0 rfl (by decide)).2.1⟩
